import Mathlib

/-!
Verification of the streaming HTML-fragment core of the
`html-fragments-demo` repository (client `dom.ts`).

The development shallowly embeds the relevant functions:

* `convertSubscribableToIterator` (push-to-pull adapter) — a state machine
  over its `resultQueue` / `pendingResolve` fields, driven by a trace of
  `emit` and `next` events;
* `streamingParseTopLevelNodes` (node boundary detector) — a one-element
  lookahead over the stream of addition notifications;
* `parseAndObserveTopLevelNodeAdditions` — a chunk-consumption loop with a
  cancellation flag;
* `parseText` — a byte-level UTF-8 streaming decoder (WHATWG machine),
  threaded per chunk with `stream: true` and never flushed at end of input;
* `dropWhitespaceNodes`, `Fragment.cloneContent`, `fixupDeclarativeShadowDom`,
  `fixupScripts`, `manualClone`, `Fragment.preloadScripts`,
  `parseDomFragment` — over a first-child/next-sibling DOM tree with
  explicit node identities (object identity is modelled by a `Nat` id and
  DOM cloning allocates fresh ids from a counter).
-/

namespace HtmlFragments

/-! ## Push-to-pull adapter (`convertSubscribableToIterator`)

An `IteratorResult<T, void>` is `some v` for `{ value: v, done: false }`
and `none` for `{ value: undefined, done: true }`. -/

/-- The mutable state captured by the closure of
`convertSubscribableToIterator`: the `resultQueue` array and whether a
`pendingResolve` callback is currently stored.  The fields `delivered`
(results handed to the consumer, in resolution order) and `emitted`
(results passed to `emit`, in call order) are ghost history used to state
ordering/loss properties. -/
structure AdapterState (α : Type) where
  queue : List (Option α)
  pending : Bool
  delivered : List (Option α)
  emitted : List (Option α)
deriving Repr, DecidableEq

/-- Initial adapter state: empty queue, no pending resolve. -/
def AdapterState.init (α : Type) : AdapterState α :=
  ⟨[], false, [], []⟩

/-- One interaction with the adapter: the producer calls `emit r`, or the
consumer calls `next()` (a request-next poll). -/
inductive AdapterEvent (α : Type) where
  | emit (r : Option α)
  | next
deriving Repr, DecidableEq

/-- `emit` from `convertSubscribableToIterator`: if a `pendingResolve` is
stored, resolve it with the value (delivering it); otherwise push the value
onto `resultQueue`. -/
def adapterEmit (s : AdapterState α) (r : Option α) : AdapterState α :=
  if s.pending then
    { s with pending := false
             delivered := s.delivered ++ [r]
             emitted := s.emitted ++ [r] }
  else
    { s with queue := s.queue ++ [r]
             emitted := s.emitted ++ [r] }

/-- `next` from the returned iterator: if `resultQueue` is non-empty,
shift its head and resolve with it; otherwise store a new
`pendingResolve` (overwriting any existing one — the slot is a single
variable in the source). -/
def adapterNext (s : AdapterState α) : AdapterState α :=
  match s.queue with
  | r :: rest => { s with queue := rest, delivered := s.delivered ++ [r] }
  | [] => { s with pending := true }

/-- Step the adapter by one event. -/
def adapterStep (s : AdapterState α) : AdapterEvent α → AdapterState α
  | .emit r => adapterEmit s r
  | .next => adapterNext s

/-- Run the adapter over a whole trace of interleaved events. -/
def adapterRun (evs : List (AdapterEvent α)) : AdapterState α :=
  evs.foldl adapterStep (AdapterState.init α)

/-- The results emitted in a trace, in emission order. -/
def traceEmitted (evs : List (AdapterEvent α)) : List (Option α) :=
  evs.filterMap fun e =>
    match e with
    | .emit r => some r
    | .next => none

/-! ## Node boundary detector (`streamingParseTopLevelNodes`)

The detector consumes the stream of addition notifications (nodes in the
order the host parser added them) and re-emits each node one step later:
a node is yielded when the *next* node arrives, and the last pending node
is yielded when the stream ends. -/

/-- The `prevNode` loop of `streamingParseTopLevelNodes`, with the current
`prevNode` as an explicit accumulator: on each incoming node, yield the
previous one (when present) and hold the new one back; at end of stream,
yield the held-back node. -/
def detectLoop (prevNode : Option α) : List α → List α
  | [] => prevNode.toList
  | a :: rest => prevNode.toList ++ detectLoop (some a) rest

/-- `streamingParseTopLevelNodes`, as a function from the sequence of
addition notifications to the sequence of completion notifications. -/
def streamingParseTopLevelNodes (additions : List α) : List α :=
  detectLoop none additions

/-- Instrumented variant recording *when* each node is released.  The
events of a run are indexed `0 .. n-1` for the `n` addition notifications
and `n` for the end of the stream; each released node is paired with the
index of the event that released it. -/
def detectLoopIndexed (prevNode : Option α) (i : Nat) : List α → List (α × Nat)
  | [] => prevNode.toList.map fun p => (p, i)
  | a :: rest =>
      (prevNode.toList.map fun p => (p, i)) ++ detectLoopIndexed (some a) (i + 1) rest

/-- Release schedule of the boundary detector: each completion
notification paired with the index of the event that triggered it. -/
def detectReleases (additions : List α) : List (α × Nat) :=
  detectLoopIndexed none 0 additions

/-! ## Cancellation (`parseAndObserveTopLevelNodeAdditions`)

The subscription body runs `for await (chunk of stream) { if (canceled)
break; doc.write(chunk); }` and in its `finally` disconnects the observer
and emits a final done result.  `parse c` abstracts the host parser's
addition notifications triggered by writing chunk `c`.  `cancelAt = k`
means the cancel function ran after `k` chunks had been written (the flag
is observed at the head of the loop, before the next write). -/

/-- The consumption loop with its cancellation flag, returning the chunks
actually written to the parse target and the emissions (node additions as
`some`, the final done as `none`). -/
def observeLoop (parse : σ → List ν) (cancelAt : Nat) :
    List σ → List σ × List (Option ν)
  | [] => ([], [none])
  | c :: rest =>
      match cancelAt with
      | 0 => ([], [none])
      | k + 1 =>
          let r := observeLoop parse k rest
          (c :: r.1, (parse c).map some ++ r.2)

/-- Consumer-side run after cancellation: feed every emission of the
(possibly canceled) producer into the adapter, then poll `next` once per
emission; returns the results delivered to the consumer. -/
def observedDeliveries (parse : σ → List ν) (cancelAt : Nat) (chunks : List σ) :
    List (Option ν) :=
  let ems := (observeLoop parse cancelAt chunks).2
  (adapterRun (ems.map .emit ++ List.replicate ems.length .next)).delivered

/-! ## Byte-to-text decoder (`parseText`)

`parseText` drives a `TextDecoder` (UTF-8, non-fatal) with
`decode(chunk, { stream: true })` on every chunk and never issues a final
flush.  We embed the WHATWG UTF-8 decoder state machine over `Nat` bytes,
emitting `Nat` code points (U+FFFD = `0xFFFD` on malformed input). -/

/-- WHATWG UTF-8 decoder state: the code point under construction, how
many continuation bytes are still needed / have been seen, and the
current lower/upper boundaries for the next byte. -/
structure DecoderState where
  cp : Nat
  needed : Nat
  seen : Nat
  lo : Nat
  hi : Nat
deriving Repr, DecidableEq

/-- Fresh decoder state. -/
def DecoderState.init : DecoderState :=
  ⟨0, 0, 0, 0x80, 0xBF⟩

/-- Handle one byte in the `needed = 0` state (start of a sequence). -/
def utf8Start (b : Nat) : List Nat × DecoderState :=
  if b ≤ 0x7F then ([b], .init)
  else if 0xC2 ≤ b ∧ b ≤ 0xDF then
    ([], ⟨b &&& 0x1F, 1, 0, 0x80, 0xBF⟩)
  else if 0xE0 ≤ b ∧ b ≤ 0xEF then
    ([], ⟨b &&& 0xF, 2, 0, if b = 0xE0 then 0xA0 else 0x80,
          if b = 0xED then 0x9F else 0xBF⟩)
  else if 0xF0 ≤ b ∧ b ≤ 0xF4 then
    ([], ⟨b &&& 0x7, 3, 0, if b = 0xF0 then 0x90 else 0x80,
          if b = 0xF4 then 0x8F else 0xBF⟩)
  else ([0xFFFD], .init)

/-- Handle one byte in any state.  On a continuation byte outside the
boundaries, emit U+FFFD, reset, and reprocess the byte as a new sequence
start (the WHATWG "restore byte to stream" step). -/
def utf8Byte (s : DecoderState) (b : Nat) : List Nat × DecoderState :=
  if s.needed = 0 then utf8Start b
  else if b < s.lo ∨ s.hi < b then
    let r := utf8Start b
    (0xFFFD :: r.1, r.2)
  else
    let cp' := (s.cp <<< 6) ||| (b &&& 0x3F)
    if s.seen + 1 = s.needed then ([cp'], .init)
    else ([], ⟨cp', s.needed, s.seen + 1, 0x80, 0xBF⟩)

/-- Run the decoder over a byte list, threading state. -/
def utf8Run (s : DecoderState) : List Nat → List Nat × DecoderState
  | [] => ([], s)
  | b :: rest =>
      let r := utf8Byte s b
      let r' := utf8Run r.2 rest
      (r.1 ++ r'.1, r'.2)

/-- `TextDecoder.decode(bytes)` without streaming: decode everything and
flush — a dangling incomplete sequence at end of input becomes U+FFFD. -/
def utf8DecodeFull (bytes : List Nat) : List Nat :=
  let r := utf8Run .init bytes
  r.1 ++ (if r.2.needed = 0 then [] else [0xFFFD])

/-- The chunk loop of `parseText`: decode each chunk with
`{ stream: true }`, carrying decoder state from chunk to chunk; the
stream is never flushed when the input ends. -/
def parseTextLoop (s : DecoderState) : List (List Nat) → List (List Nat)
  | [] => []
  | c :: rest =>
      let r := utf8Run s c
      r.1 :: parseTextLoop r.2 rest

/-- `parseText`: the stream of text chunks produced for a stream of byte
chunks. -/
def parseText (chunks : List (List Nat)) : List (List Nat) :=
  parseTextLoop .init chunks

/-! ## DOM model

A first-child/next-sibling tree.  Object identity (what `WeakSet`
membership and in-place mutation are keyed on) is modelled by a `Nat` id;
every DOM cloning primitive (`importNode`, `cloneNode`,
`createElement`) allocates fresh ids from a monotone counter.  A node
carries its kind, tag name, attribute list, own text content, an attached
shadow tree (`nil` when none), its first child and its next sibling.
`<template>` children stand for the template's inert `content` fragment,
which CSS queries do not search. -/

inductive NKind where
  | element
  | textNode
  | fragment
deriving Repr, DecidableEq

inductive Dom where
  | nil : Dom
  | node (id : Nat) (kind : NKind) (tag : String)
      (attrs : List (String × String)) (text : String)
      (shadow : Dom) (child : Dom) (sib : Dom) : Dom
deriving Repr, DecidableEq

/-- `getAttribute`: first attribute with the given name, `none` when the
attribute is absent (JS `null`). -/
def getAttr (attrs : List (String × String)) (name : String) : Option String :=
  (attrs.find? fun p => p.1 == name).map (·.2)

/-- Kind of the root node (`none` for the empty tree). -/
def kindOf : Dom → Option NKind
  | .nil => none
  | .node _ k _ _ _ _ _ _ => some k

/-- Own text content of the root node. -/
def textOf : Dom → String
  | .nil => ""
  | .node _ _ _ _ tx _ _ _ => tx

/-- All node ids in a tree (shadow trees included). -/
def domIds : Dom → List Nat
  | .nil => []
  | .node i _ _ _ _ sh ch sb => i :: (domIds sh ++ domIds ch ++ domIds sb)

/-- Deep-clone a node *and its sibling chain*, allocating fresh ids.
Shadow roots are not cloned (DOM cloning does not copy them). -/
def importChain (c : Nat) : Dom → Dom × Nat
  | .nil => (.nil, c)
  | .node _ k tg a tx _ ch sb =>
      let rc := importChain (c + 1) ch
      let rs := importChain rc.2 sb
      (.node c k tg a tx .nil rc.1 rs.1, rs.2)

/-- `document.importNode(node, true)`: deep clone of one node (the clone
has no sibling), fresh ids from the counter. -/
def importNode (c : Nat) : Dom → Dom × Nat
  | .nil => (.nil, c)
  | .node _ k tg a tx _ ch _ =>
      let rc := importChain (c + 1) ch
      (.node c k tg a tx .nil rc.1 .nil, rc.2)

/-- Mutate (in the id-keyed sense) the text content of the node with the
given id, wherever it occurs in the tree. -/
def mutateText (i : Nat) (s : String) : Dom → Dom
  | .nil => .nil
  | .node j k tg a tx sh ch sb =>
      .node j k tg a (if j = i then s else tx)
        (mutateText i s sh) (mutateText i s ch) (mutateText i s sb)

/-- Replace the root's next-sibling link (used to splice a replacement
node into the position of the node it replaces). -/
def withSib : Dom → Dom → Dom
  | .nil, _ => .nil
  | .node i k tg a tx sh ch _, s => .node i k tg a tx sh ch s

/-! ### `fixupDeclarativeShadowDom`

Walks the descendants of the root (shadow trees and template contents are
not searched, as `querySelectorAll` does not pierce them).  Each
`<template shadowroot="...">` with a non-empty mode is removed from its
parent's child list; a fresh deep clone of its content
(`template.content.cloneNode(true)`) becomes the parent's shadow tree.
An empty/absent mode leaves the template in place (`if (!mode) continue`).
(When several sibling templates declare a shadow root the real
`attachShadow` throws on the second; the model lets the later one win.) -/

/-- Process one child chain; returns the rewritten chain, the shadow
content to attach to the parent (if a template was stamped), and the
fresh-id counter. -/
def fixupDsdChain (c : Nat) : Dom → Dom × Option Dom × Nat
  | .nil => (.nil, none, c)
  | .node i k tg a tx sh ch sb =>
      if k = NKind.element ∧ tg = "template" then
        match getAttr a "shadowroot" with
        | some m =>
            if m = "" then
              let rs := fixupDsdChain c sb
              (.node i k tg a tx sh ch rs.1, rs.2.1, rs.2.2)
            else
              let rcontents := importChain c ch
              let rs := fixupDsdChain rcontents.2 sb
              (rs.1, some (rs.2.1.getD rcontents.1), rs.2.2)
        | none =>
            let rs := fixupDsdChain c sb
            (.node i k tg a tx sh ch rs.1, rs.2.1, rs.2.2)
      else
        let rc := fixupDsdChain c ch
        let rs := fixupDsdChain rc.2.2 sb
        (.node i k tg a tx (rc.2.1.getD sh) rc.1 rs.1, rs.2.1, rs.2.2)

/-- `fixupDeclarativeShadowDom(root)`: stamp every declarative
shadow-tree template among the root's descendants (the root itself is
never matched; a template root's content is inert and not searched). -/
def fixupDeclarativeShadowDom (c : Nat) : Dom → Dom × Nat
  | .nil => (.nil, c)
  | .node i k tg a tx sh ch sb =>
      if k = NKind.element ∧ tg = "template" then
        (.node i k tg a tx sh ch sb, c)
      else
        let rc := fixupDsdChain c ch
        (.node i k tg a tx (rc.2.1.getD sh) rc.1 sb, rc.2.2)

/-! ### `fixupScripts` / `manualClone` -/

/-- `manualClone(oldScript)`: `document.createElement('script')` (a fresh
node, hence a fresh id), copy every attribute, assign `textContent`.
Children of the old script are not cloned. -/
def manualClone (c : Nat) (attrs : List (String × String)) (text : String) : Dom :=
  .node c NKind.element "script" attrs text .nil .nil .nil

/-- Process one child chain for `fixupScripts`: each descendant script
element whose id is recorded in the side table (`fixedScriptSet`) is left
alone; every other script is replaced in place by `manualClone`, and the
replacement's id is recorded in the table.  Template contents and shadow
trees are not searched. -/
def fixupScriptsChain (table : List Nat) (c : Nat) : Dom → Dom × List Nat × Nat
  | .nil => (.nil, table, c)
  | .node i k tg a tx sh ch sb =>
      if k = NKind.element ∧ tg = "script" then
        if i ∈ table then
          let rs := fixupScriptsChain table c sb
          (.node i k tg a tx sh ch rs.1, rs.2.1, rs.2.2)
        else
          let rs := fixupScriptsChain (table ++ [c]) (c + 1) sb
          (withSib (manualClone c a tx) rs.1, rs.2.1, rs.2.2)
      else if k = NKind.element ∧ tg = "template" then
        let rs := fixupScriptsChain table c sb
        (.node i k tg a tx sh ch rs.1, rs.2.1, rs.2.2)
      else
        let rc := fixupScriptsChain table c ch
        let rs := fixupScriptsChain rc.2.1 rc.2.2 sb
        (.node i k tg a tx sh rc.1 rs.1, rs.2.1, rs.2.2)

/-- `fixupScripts(root)`: rewrite the scripts found among the root's
descendants (`querySelectorAll('script')` never matches the root itself,
and does not search a template root's inert content). -/
def fixupScripts (table : List Nat) (c : Nat) : Dom → Dom × List Nat × Nat
  | .nil => (.nil, table, c)
  | .node i k tg a tx sh ch sb =>
      if k = NKind.element ∧ tg = "template" then
        (.node i k tg a tx sh ch sb, table, c)
      else
        let rc := fixupScriptsChain table c ch
        (.node i k tg a tx sh rc.1 sb, rc.2.1, rc.2.2)

/-- The descendant scripts a fixup pass visits, in document order:
`(id, attributes, inline content)` triples.  Mirrors the traversal of
`fixupScriptsChain` (template contents and shadow trees skipped). -/
def scriptsOfChain : Dom → List (Nat × List (String × String) × String)
  | .nil => []
  | .node i k tg a tx _ ch sb =>
      if k = NKind.element ∧ tg = "script" then
        (i, a, tx) :: scriptsOfChain sb
      else if k = NKind.element ∧ tg = "template" then
        scriptsOfChain sb
      else
        scriptsOfChain ch ++ scriptsOfChain sb

/-- The scripts found below a root node. -/
def scriptsOf : Dom → List (Nat × List (String × String) × String)
  | .nil => []
  | .node _ k tg _ _ _ ch _ =>
      if k = NKind.element ∧ tg = "template" then []
      else scriptsOfChain ch

/-- Specification-level transform of the script list (the claim's words):
a script already recorded keeps its node; a script not recorded is
replaced by a fresh node with the same attributes and inline content, and
the fresh id is recorded. -/
def rewriteScripts (table : List Nat) (c : Nat) :
    List (Nat × List (String × String) × String) →
    List (Nat × List (String × String) × String) × List Nat × Nat
  | [] => ([], table, c)
  | (i, a, tx) :: rest =>
      if i ∈ table then
        let r := rewriteScripts table c rest
        ((i, a, tx) :: r.1, r.2.1, r.2.2)
      else
        let r := rewriteScripts (table ++ [c]) (c + 1) rest
        ((c, a, tx) :: r.1, r.2.1, r.2.2)

/-! ### `Fragment.cloneContent` -/

/-- `Fragment.cloneContent()`: deep-import the wrapped node into the
active document, then — only when the clone is an `Element` or a
`DocumentFragment` — apply `fixupDeclarativeShadowDom` and
`fixupScripts`.  Takes and returns the process-wide side table and the
fresh-id counter. -/
def cloneContent (table : List Nat) (c : Nat) (t : Dom) :
    Dom × List Nat × Nat :=
  let rimp := importNode c t
  if kindOf rimp.1 = some NKind.element ∨ kindOf rimp.1 = some NKind.fragment then
    let rdsd := fixupDeclarativeShadowDom rimp.2 rimp.1
    let rfix := fixupScripts table rdsd.2 rdsd.1
    (rfix.1, rfix.2.1, rfix.2.2)
  else
    (rimp.1, table, rimp.2)

/-! ## Whitespace filter (`dropWhitespaceNodes`) -/

/-- The characters removed by JavaScript's `String.prototype.trim`
(WhiteSpace and LineTerminator code points). -/
def jsWhitespaceChar (ch : Char) : Bool :=
  ch = ' ' || ch = '\t' || ch = '\n' || ch = '\r' ||
  ch = '\x0b' || ch = '\x0c' || ch = '\u00A0' || ch = '\uFEFF' ||
  ch = '\u1680' || ('\u2000' ≤ ch && ch ≤ '\u200A') ||
  ch = '\u2028' || ch = '\u2029' || ch = '\u202F' || ch = '\u205F' ||
  ch = '\u3000'

/-- `trim` on a character list: strip leading and trailing whitespace. -/
def jsTrimList (l : List Char) : List Char :=
  ((l.dropWhile jsWhitespaceChar).reverse.dropWhile jsWhitespaceChar).reverse

/-- JavaScript `String.prototype.trim`. -/
def jsTrim (s : String) : String :=
  ⟨jsTrimList s.data⟩

/-- `dropWhitespaceNodes`: pass the node sequence through, dropping every
node that is a text node whose trimmed text content is empty. -/
def dropWhitespaceNodes : List Dom → List Dom
  | [] => []
  | n :: rest =>
      if kindOf n = some NKind.textNode ∧ jsTrim (textOf n) = "" then
        dropWhitespaceNodes rest
      else
        n :: dropWhitespaceNodes rest

/-! ## `Fragment.preloadScripts`

The method returns immediately when the wrapped node is neither an
element nor a document fragment.  Otherwise it takes the scripts found by
`querySelectorAll('script')` (modelled as the list of their
`(attributes, inline content)` pairs, in document order) and loops over
them: a script whose `type` attribute is not exactly `"module"` raises
the contract-violation error at once; otherwise a shallow clone of the
script (its attributes) is appended to `document.head`.  After the loop,
each script's `src` is dynamically imported (falsy `src` — absent or
empty — resolves immediately) and the call resolves once all imports
settle. -/

/-- One found script: its attributes and inline text content. -/
structure FoundScr where
  attrs : List (String × String)
  text : String
deriving Repr, DecidableEq

/-- The append loop of `preloadScripts`: returns the shallow clones
appended to `document.head` before any violation, and whether a
non-module script was hit (aborting the loop). -/
def preloadAppendLoop : List FoundScr → List (List (String × String)) × Bool
  | [] => ([], false)
  | s :: rest =>
      if getAttr s.attrs "type" = some "module" then
        let r := preloadAppendLoop rest
        (s.attrs :: r.1, r.2)
      else
        ([], true)

/-- The `src` a script contributes to the dynamic-import phase: `none`
when absent or empty (`if (!src) return Promise.resolve()`). -/
def scriptImportSrc (s : FoundScr) : Option String :=
  match getAttr s.attrs "src" with
  | none => none
  | some "" => none
  | some src => some src

/-- `Fragment.preloadScripts()`: `.error appended` models the thrown
contract-violation error (`appended` are the head clones made before
detection); `.ok (appended, imports)` models successful resolution after
awaiting all dynamic imports. -/
def preloadScripts (k : Option NKind) (scripts : List FoundScr) :
    Except (List (List (String × String)))
      (List (List (String × String)) × List String) :=
  if k = some NKind.element ∨ k = some NKind.fragment then
    let r := preloadAppendLoop scripts
    if r.2 then .error r.1
    else .ok (r.1, scripts.filterMap scriptImportSrc)
  else
    .ok ([], [])

/-! ## Whole-response parser (`parseDomFragment`) content-type handling -/

/-- The error cases of `parseDomFragment` before parsing begins. -/
inductive DomParseError where
  | missingContentType
deriving Repr, DecidableEq

/-- `contentType.indexOf(';') === -1 ? contentType :
contentType.slice(0, contentType.indexOf(';'))`. -/
def simpleContentType (ct : List Char) : List Char :=
  match ct.findIdx? (· == ';') with
  | none => ct
  | some i => ct.take i

/-- Content-type handling of `parseDomFragment`: the header value is
`none` when the response has no `Content-Type` header; the guard is the
JS falsiness test `if (!contentType) throw ...`, and on success the
parser mode is the simple content type. -/
def parseDomFragmentMode (contentType : Option (List Char)) :
    Except DomParseError (List Char) :=
  match contentType with
  | none => .error .missingContentType
  | some s =>
      if s = [] then .error .missingContentType
      else .ok (simpleContentType s)

/-! ## Auxiliary definitions used by the statements -/

/-- Spec-side release schedule (the claim's words, for comparison with
`detectReleases`): with events indexed from `i`, the node at offset `j`
of the addition sequence is released by event `i + j + 1` — the addition
of its next sibling, or the end-of-stream event when it is the last
node. -/
def releaseScheduleSpec (i : Nat) : List α → List (α × Nat)
  | [] => []
  | a :: rest => (a, i + 1) :: releaseScheduleSpec (i + 1) rest

/-- Ids of an optional tree. -/
def domIdsOpt : Option Dom → List Nat
  | none => []
  | some d => domIds d

/-- A document fragment holding one external module script — the concrete
input for the re-clone scenario. -/
def scriptDemoFragment : Dom :=
  .node 1 NKind.fragment "" [] ""
    .nil
    (.node 2 NKind.element "script" [("type", "module"), ("src", "/a.js")] ""
      .nil .nil .nil)
    .nil

/-! # Theorems -/

/-! ## C1 — push-to-pull adapter delivers in order, exactly once -/

/-- Single-step preservation of the adapter invariant: the emission
history splits into what was delivered and what is still queued, and a
stored pending resolve implies an empty queue. -/
theorem adapterStep_inv (s : AdapterState α) (e : AdapterEvent α)
    (h1 : s.emitted = s.delivered ++ s.queue)
    (h2 : s.pending = true → s.queue = []) :
    (adapterStep s e).emitted = (adapterStep s e).delivered ++ (adapterStep s e).queue ∧
    ((adapterStep s e).pending = true → (adapterStep s e).queue = []) := by
  cases e with
  | emit r =>
      by_cases hp : s.pending = true
      · have hq := h2 hp
        simp [adapterStep, adapterEmit, hp, hq, h1]
      · simp only [Bool.not_eq_true] at hp
        simp [adapterStep, adapterEmit, hp, h1]
  | next =>
      obtain ⟨qu, p, d, em⟩ := s
      cases qu with
      | nil => simpa [adapterStep, adapterNext] using h1
      | cons r rest =>
          refine ⟨?_, fun hp => ?_⟩
          · simpa [adapterStep, adapterNext] using h1
          · simp only at hp h2
            exact absurd (h2 hp) (by simp)

/-- The adapter invariant holds along any fold of a trace. -/
theorem adapterFold_inv (evs : List (AdapterEvent α)) (s : AdapterState α)
    (h1 : s.emitted = s.delivered ++ s.queue)
    (h2 : s.pending = true → s.queue = []) :
    (evs.foldl adapterStep s).emitted =
      (evs.foldl adapterStep s).delivered ++ (evs.foldl adapterStep s).queue ∧
    ((evs.foldl adapterStep s).pending = true →
      (evs.foldl adapterStep s).queue = []) := by
  induction evs generalizing s with
  | nil => exact ⟨h1, h2⟩
  | cons e rest ih =>
      simp only [List.foldl_cons]
      exact ih _ (adapterStep_inv s e h1 h2).1 (adapterStep_inv s e h1 h2).2

/-- The ghost emission history accumulates exactly the trace's emitted
results, in order. -/
theorem adapterFold_emitted (evs : List (AdapterEvent α)) (s : AdapterState α) :
    (evs.foldl adapterStep s).emitted = s.emitted ++ traceEmitted evs := by
  induction evs generalizing s with
  | nil => simp [traceEmitted]
  | cons e rest ih =>
      cases e with
      | emit r =>
          by_cases hp : s.pending = true
          · simp [List.foldl_cons, adapterStep, adapterEmit, hp, ih, traceEmitted]
          · simp only [Bool.not_eq_true] at hp
            simp [List.foldl_cons, adapterStep, adapterEmit, hp, ih, traceEmitted]
      | next =>
          obtain ⟨qu, p, d, em⟩ := s
          cases qu with
          | nil => simp [List.foldl_cons, adapterStep, adapterNext, ih, traceEmitted]
          | cons r q => simp [List.foldl_cons, adapterStep, adapterNext, ih, traceEmitted]

/-- Polling `next` once per queued result drains the queue into the
delivered history, preserving order. -/
theorem adapter_drain (q : List (Option α)) (s : AdapterState α) (hq : s.queue = q) :
    ((List.replicate q.length (AdapterEvent.next : AdapterEvent α)).foldl
        adapterStep s).delivered = s.delivered ++ q := by
  induction q generalizing s with
  | nil => simp
  | cons r rest ih =>
      obtain ⟨qu, p, d, em⟩ := s
      simp only at hq
      subst hq
      have h1 : adapterStep (⟨r :: rest, p, d, em⟩ : AdapterState α) .next =
          ⟨rest, p, d ++ [r], em⟩ := rfl
      rw [List.length_cons, List.replicate_succ, List.foldl_cons, h1,
        ih ⟨rest, p, d ++ [r], em⟩ rfl]
      simp

/-- **C1.** For every interleaving of producer `emit` calls and consumer
request-next calls on `convertSubscribableToIterator` — back-to-back
emits and back-to-back request-nexts included — the emitted results
split exactly into the results already delivered (in delivery order)
followed by the queued ones: nothing is lost, duplicated, or reordered;
a stored pending resolve coexists only with an empty queue; and polling
`next` once per still-queued result delivers the full emission history in
emission order. -/
theorem convertSubscribableToIterator_order (evs : List (AdapterEvent α)) :
    (adapterRun evs).emitted = traceEmitted evs ∧
    traceEmitted evs = (adapterRun evs).delivered ++ (adapterRun evs).queue ∧
    ((adapterRun evs).pending = true → (adapterRun evs).queue = []) ∧
    ((List.replicate (adapterRun evs).queue.length
        (AdapterEvent.next : AdapterEvent α)).foldl adapterStep
        (adapterRun evs)).delivered = traceEmitted evs := by
  have hinv := adapterFold_inv evs (AdapterState.init α) rfl (fun _ => rfl)
  have hem := adapterFold_emitted evs (AdapterState.init α)
  have he : (adapterRun evs).emitted = traceEmitted evs := by
    simpa [adapterRun, AdapterState.init] using hem
  refine ⟨he, ?_, hinv.2, ?_⟩
  · rw [← he]
    exact hinv.1
  · rw [adapter_drain (adapterRun evs).queue (adapterRun evs) rfl, ← he]
    exact hinv.1.symm

/-- Witness for C1 at concrete traces: a trace ending with a stored
pending resolve indeed has an empty queue, and two emits followed by two
request-nexts deliver both values in emission order. -/
theorem convertSubscribableToIterator_order_witness :
    (adapterRun [AdapterEvent.next, .emit (some 1), .next] : AdapterState Nat).queue = [] ∧
    (adapterRun [AdapterEvent.emit (some 1), .emit (some 2), .next, .next] :
        AdapterState Nat).delivered = [some 1, some 2] :=
  ⟨(convertSubscribableToIterator_order
      [AdapterEvent.next, .emit (some 1), .next]).2.2.1 (by decide),
   by decide⟩

/-! ## C2 — node boundary detector -/

/-- With a held-back node, the detector's output is that node followed by
everything still to come. -/
theorem detectLoop_some (p : α) (l : List α) :
    detectLoop (some p) l = p :: l := by
  induction l generalizing p with
  | nil => rfl
  | cons a rest ih => simpa [detectLoop] using ih a

/-- Indexed variant: the held-back node is released by the current event,
and each later node by the event after its own addition. -/
theorem detectLoopIndexed_some (p : α) (i : Nat) (l : List α) :
    detectLoopIndexed (some p) i l = (p, i) :: releaseScheduleSpec i l := by
  induction l generalizing p i with
  | nil => rfl
  | cons a rest ih => simpa [detectLoopIndexed, releaseScheduleSpec] using ih a (i + 1)

/-- The spec-side schedule releases the nodes themselves, in order. -/
theorem releaseScheduleSpec_map_fst (i : Nat) (l : List α) :
    (releaseScheduleSpec i l).map Prod.fst = l := by
  induction l generalizing i with
  | nil => rfl
  | cons a rest ih => simpa [releaseScheduleSpec] using ih (i + 1)

/-- **C2.** For every addition sequence of `n` top-level nodes, the node
boundary detector emits exactly the `n` nodes, in document order; its
release schedule holds each node back until event `j + 1` — the addition
of its next sibling, or the end-of-stream event for the last node — so a
node is released only once parsing has moved past it. -/
theorem streamingParseTopLevelNodes_boundary (ns : List α) :
    streamingParseTopLevelNodes ns = ns ∧
    detectReleases ns = releaseScheduleSpec 0 ns ∧
    (detectReleases ns).map Prod.fst = ns := by
  refine ⟨?_, ?_, ?_⟩
  · cases ns with
    | nil => rfl
    | cons a rest =>
        simpa [streamingParseTopLevelNodes, detectLoop] using detectLoop_some a rest
  · cases ns with
    | nil => rfl
    | cons a rest =>
        simpa [detectReleases, detectLoopIndexed, releaseScheduleSpec] using
          detectLoopIndexed_some a 1 rest
  · cases ns with
    | nil => rfl
    | cons a rest =>
        rw [detectReleases]
        simp only [detectLoopIndexed, Option.toList, List.map_nil, List.nil_append]
        rw [detectLoopIndexed_some a 1 rest]
        simpa [releaseScheduleSpec] using releaseScheduleSpec_map_fst 1 rest

/-! ## C3 — cancellation -/

/-- Emitting a sequence of results into an adapter with no stored pending
resolve queues all of them, in order. -/
theorem adapterFold_emits (ems : List (Option α)) (q d e : List (Option α)) :
    ((ems.map AdapterEvent.emit).foldl adapterStep ⟨q, false, d, e⟩) =
      (⟨q ++ ems, false, d, e ++ ems⟩ : AdapterState α) := by
  induction ems generalizing q e with
  | nil => simp
  | cons r rest ih =>
      have h1 : adapterStep (⟨q, false, d, e⟩ : AdapterState α) (.emit r) =
          ⟨q ++ [r], false, d, e ++ [r]⟩ := by
        simp [adapterStep, adapterEmit]
      simp only [List.map_cons, List.foldl_cons, h1, ih]
      simp

/-- Feeding every emission and then polling once per emission delivers
exactly the emissions, in order. -/
theorem adapter_feed_then_poll (ems : List (Option α)) :
    (adapterRun (ems.map .emit ++ List.replicate ems.length .next)).delivered = ems := by
  have h1 : ems.length = (ems : List (Option α)).length := rfl
  rw [adapterRun, List.foldl_append]
  have h2 : (ems.map AdapterEvent.emit).foldl adapterStep (AdapterState.init α) =
      ⟨ems, false, [], ems⟩ := by
    simpa [AdapterState.init] using adapterFold_emits ems [] [] []
  rw [h2]
  simpa using adapter_drain ems ⟨ems, false, [], ems⟩ rfl

/-- **C3.** Once the cancellation flag is set after `k` chunks, the
consumption loop feeds the parser none of the remaining chunks, the only
further emission is the final done result (no error), and a consumer
polling the adapter receives every pre-cancellation node and then a done
resolution on the next request; in particular canceling after 2 of 5
single-node chunks delivers the two nodes and then done. -/
theorem cancellation_stops_feeding_and_resolves_done
    (parse : σ → List ν) (chunks : List σ) (k : Nat) :
    (observeLoop parse k chunks).1 = chunks.take k ∧
    (observeLoop parse k chunks).2 =
      ((chunks.take k).flatMap fun c => (parse c).map some) ++ [none] ∧
    observedDeliveries parse k chunks = (observeLoop parse k chunks).2 ∧
    (observedDeliveries parse k chunks).getLast? = some none ∧
    observedDeliveries (fun n => [n]) 2 [1, 2, 3, 4, 5] =
      [some 1, some 2, none] := by
  have h12 : (observeLoop parse k chunks).1 = chunks.take k ∧
      (observeLoop parse k chunks).2 =
        ((chunks.take k).flatMap fun c => (parse c).map some) ++ [none] := by
    induction chunks generalizing k with
    | nil => simp [observeLoop]
    | cons c rest ih =>
        cases k with
        | zero => simp [observeLoop]
        | succ k' =>
            have := ih k'
            simp [observeLoop, this.1, this.2, List.take_succ_cons]
  have h3 : observedDeliveries parse k chunks = (observeLoop parse k chunks).2 := by
    rw [observedDeliveries]
    exact adapter_feed_then_poll _
  refine ⟨h12.1, h12.2, h3, ?_, by decide⟩
  rw [h3, h12.2]
  simp

/-! ## C7 — byte-to-text decoder -/

/-- The decoder is chunk-boundary agnostic: running it over a
concatenation equals running the pieces with the state carried over. -/
theorem utf8Run_append (s : DecoderState) (a b : List Nat) :
    utf8Run s (a ++ b) =
      ((utf8Run s a).1 ++ (utf8Run (utf8Run s a).2 b).1,
        (utf8Run (utf8Run s a).2 b).2) := by
  induction a generalizing s with
  | nil => simp [utf8Run]
  | cons x rest ih => simp [utf8Run, ih]

/-- Concatenating the text chunks of the streaming loop equals decoding
the concatenated bytes (without the end-of-stream flush). -/
theorem parseTextLoop_join (s : DecoderState) (chunks : List (List Nat)) :
    (parseTextLoop s chunks).flatten = (utf8Run s chunks.flatten).1 := by
  induction chunks generalizing s with
  | nil => simp [parseTextLoop, utf8Run]
  | cons c rest ih => simp [parseTextLoop, utf8Run_append, ih]

/-- **C7 (amended).** Whenever the concatenated input does not end in the
middle of a multi-byte sequence (the decoder is back in its accepting
state after the last byte), the concatenation of all text chunks
produced by `parseText` equals the decoded form of the concatenation of
all input byte chunks — chunk boundaries, including ones splitting a
multi-byte character, are invisible; and malformed bytes are replaced by
U+FFFD rather than raising an error.  (Unamended, the claim fails on
inputs ending mid-sequence: `parseText` never flushes the decoder.) -/
theorem parseText_lossless_when_complete (chunks : List (List Nat))
    (h : (utf8Run .init chunks.flatten).2.needed = 0) :
    (parseText chunks).flatten = utf8DecodeFull chunks.flatten ∧
    (parseText [[0x41, 0xFF], [0x42]]).flatten = [0x41, 0xFFFD, 0x42] := by
  constructor
  · rw [parseText, parseTextLoop_join, utf8DecodeFull, h]
    simp
  · decide

/-- Witness for C7 at a concrete input whose two chunks split the
two-byte encoding of U+00E9. -/
theorem parseText_lossless_when_complete_witness :
    (utf8Run .init (List.flatten [[0xC3], [0xA9]])).2.needed = 0 ∧
    (parseText [[0xC3], [0xA9]]).flatten = utf8DecodeFull (List.flatten [[0xC3], [0xA9]]) ∧
    (parseText [[0xC3], [0xA9]]).flatten = [0xE9] :=
  ⟨by decide, (parseText_lossless_when_complete [[0xC3], [0xA9]] (by decide)).1,
    by decide⟩

/-- Counterexample to C7 as stated: a stream ending mid-character.  The
streaming path emits nothing (the decoder is never flushed), while
decoding the concatenated input substitutes U+FFFD for the dangling
incomplete sequence. -/
theorem parseText_drops_trailing_incomplete :
    (parseText [[0xC3]]).flatten = [] ∧
    utf8DecodeFull (List.flatten [[0xC3]]) = [0xFFFD] ∧
    (parseText [[0xC3]]).flatten ≠ utf8DecodeFull (List.flatten [[0xC3]]) := by
  decide

/-! ## C8 — whitespace filter -/

/-- **C8.** `dropWhitespaceNodes` removes from the node sequence exactly
the text nodes whose trimmed content is empty: the output is the filter
of the input by that predicate (so retained nodes are unmodified), it is
a sublist of the input (order preserved), every text node with some
non-whitespace content is retained, and every removed node was a
whitespace-only text node. -/
theorem dropWhitespaceNodes_spec (ns : List Dom) :
    dropWhitespaceNodes ns =
      ns.filter (fun n =>
        !(decide (kindOf n = some NKind.textNode ∧ jsTrim (textOf n) = ""))) ∧
    (dropWhitespaceNodes ns).Sublist ns ∧
    (∀ n, n ∈ ns → kindOf n = some NKind.textNode → jsTrim (textOf n) ≠ "" →
      n ∈ dropWhitespaceNodes ns) ∧
    (∀ n, n ∈ ns → n ∉ dropWhitespaceNodes ns →
      kindOf n = some NKind.textNode ∧ jsTrim (textOf n) = "") := by
  have hfilter : dropWhitespaceNodes ns =
      ns.filter (fun n =>
        !(decide (kindOf n = some NKind.textNode ∧ jsTrim (textOf n) = ""))) := by
    induction ns with
    | nil => rfl
    | cons n rest ih =>
        by_cases h : kindOf n = some NKind.textNode ∧ jsTrim (textOf n) = ""
        · simp [dropWhitespaceNodes, h, ih, List.filter_cons]
        · rcases not_and_or.mp h with h' | h' <;>
            simp [dropWhitespaceNodes, h, h', ih, List.filter_cons]
  refine ⟨hfilter, ?_, ?_, ?_⟩
  · rw [hfilter]
    exact List.filter_sublist ns
  · intro n hmem hkind htrim
    rw [hfilter, List.mem_filter]
    exact ⟨hmem, by simp [htrim]⟩
  · intro n hmem hnot
    by_contra h
    apply hnot
    rw [hfilter, List.mem_filter]
    refine ⟨hmem, ?_⟩
    simp only [not_and_or] at h
    simp only [Bool.not_eq_eq_eq_not, Bool.not_true, decide_eq_false_iff_not]
    tauto

/-- Witness for C8: a text node mixing whitespace and non-whitespace is
retained while a whitespace-only sibling is dropped. -/
theorem dropWhitespaceNodes_spec_witness :
    Dom.node 7 NKind.textNode "" [] " a " .nil .nil .nil ∈
      dropWhitespaceNodes
        [Dom.node 3 NKind.textNode "" [] "  " .nil .nil .nil,
         Dom.node 7 NKind.textNode "" [] " a " .nil .nil .nil] ∧
    dropWhitespaceNodes
        [Dom.node 3 NKind.textNode "" [] "  " .nil .nil .nil,
         Dom.node 7 NKind.textNode "" [] " a " .nil .nil .nil] =
      [Dom.node 7 NKind.textNode "" [] " a " .nil .nil .nil] :=
  ⟨(dropWhitespaceNodes_spec _).2.2.1 _ (by decide) (by decide) (by decide),
    by decide⟩

/-! ## C4 — `Fragment.preloadScripts` -/

/-- Behavior of the append loop: it aborts exactly when some script's
`type` attribute is not `"module"`; on abort the appended head clones are
the module scripts strictly before the first offender; with no offender
every script is appended. -/
theorem preloadAppendLoop_spec (l : List FoundScr) :
    ((preloadAppendLoop l).2 = true ↔
      ∃ s ∈ l, getAttr s.attrs "type" ≠ some "module") ∧
    ((preloadAppendLoop l).2 = true →
      (preloadAppendLoop l).1 =
        (l.takeWhile fun s =>
          decide (getAttr s.attrs "type" = some "module")).map FoundScr.attrs) ∧
    ((preloadAppendLoop l).2 = false →
      (preloadAppendLoop l).1 = l.map FoundScr.attrs) := by
  induction l with
  | nil => simp [preloadAppendLoop]
  | cons s rest ih =>
      by_cases hm : getAttr s.attrs "type" = some "module"
      · refine ⟨?_, ?_, ?_⟩
        · simpa [preloadAppendLoop, hm] using ih.1
        · intro hv
          have hv' : (preloadAppendLoop rest).2 = true := by
            simpa [preloadAppendLoop, hm] using hv
          simp [preloadAppendLoop, hm, List.takeWhile_cons, ih.2.1 hv']
        · intro hv
          have hv' : (preloadAppendLoop rest).2 = false := by
            simpa [preloadAppendLoop, hm] using hv
          simp [preloadAppendLoop, hm, ih.2.2 hv']
      · refine ⟨?_, ?_, ?_⟩
        · simp only [preloadAppendLoop, if_neg hm]
          simp only [true_iff]
          exact ⟨s, List.mem_cons_self s rest, hm⟩
        · intro _
          simp [preloadAppendLoop, hm, List.takeWhile_cons]
        · intro hv
          simp [preloadAppendLoop, hm] at hv

/-- Counterexample to C4 as stated: a fragment whose only executable
declaration is *inline* but module-typed (`type="module"`, no `src`)
does **not** raise a contract violation — `preloadScripts` resolves
successfully, appending the clone and importing nothing. -/
theorem preloadScripts_accepts_inline_module :
    getAttr (FoundScr.mk [("type", "module")] "doWork();").attrs "src" = none ∧
    preloadScripts (some NKind.element) [FoundScr.mk [("type", "module")] "doWork();"] =
      .ok ([[("type", "module")]], []) :=
  ⟨rfl, rfl⟩

/-- **C4 (amended).** On an element or fragment node,
`Fragment.preloadScripts` fails with the contract-violation error iff
some found declaration's `type` attribute is not `"module"` (an inline
module-typed declaration is accepted, merely not imported); on failure
the declarations appended before the first offender are exactly the
module-typed ones preceding it and nothing after the offender is loaded;
when every declaration is module-typed the call resolves after appending
all of them and importing each non-empty `src`. -/
theorem preloadScripts_module_contract (k : Option NKind) (scripts : List FoundScr)
    (hk : k = some NKind.element ∨ k = some NKind.fragment) :
    ((∃ e, preloadScripts k scripts = .error e) ↔
      ∃ s ∈ scripts, getAttr s.attrs "type" ≠ some "module") ∧
    (∀ e, preloadScripts k scripts = .error e →
      e = (scripts.takeWhile fun s =>
        decide (getAttr s.attrs "type" = some "module")).map FoundScr.attrs) ∧
    ((∀ s ∈ scripts, getAttr s.attrs "type" = some "module") →
      preloadScripts k scripts =
        .ok (scripts.map FoundScr.attrs, scripts.filterMap scriptImportSrc)) := by
  have hspec := preloadAppendLoop_spec scripts
  cases hv : (preloadAppendLoop scripts).2 with
  | true =>
      refine ⟨?_, ?_, ?_⟩
      · constructor
        · intro _
          exact hspec.1.mp hv
        · intro _
          exact ⟨(preloadAppendLoop scripts).1, by simp [preloadScripts, hk, hv]⟩
      · intro e he
        have he' : e = (preloadAppendLoop scripts).1 := by
          simp [preloadScripts, hk, hv] at he
          exact he.symm
        rw [he', hspec.2.1 hv]
      · intro hall
        obtain ⟨s, hs, hsne⟩ := hspec.1.mp hv
        exact absurd (hall s hs) hsne
  | false =>
      refine ⟨?_, ?_, ?_⟩
      · constructor
        · intro ⟨e, he⟩
          simp [preloadScripts, hk, hv] at he
        · intro hex
          have := hspec.1.mpr hex
          rw [hv] at this
          cases this
      · intro e he
        simp [preloadScripts, hk, hv] at he
      · intro _
        simp [preloadScripts, hk, hv, hspec.2.2 hv]

/-- Witness for C4 (amended): a module script followed by a non-module
script raises the error, with only the leading module clone appended. -/
theorem preloadScripts_module_contract_witness :
    (∃ e, preloadScripts (some NKind.fragment)
        [FoundScr.mk [("type", "module"), ("src", "/a.js")] "",
         FoundScr.mk [("src", "/b.js")] ""] = .error e) ∧
    preloadScripts (some NKind.fragment)
        [FoundScr.mk [("type", "module"), ("src", "/a.js")] "",
         FoundScr.mk [("src", "/b.js")] ""] =
      .error [[("type", "module"), ("src", "/a.js")]] :=
  ⟨(preloadScripts_module_contract _ _ (Or.inr rfl)).1.mpr
      ⟨FoundScr.mk [("src", "/b.js")] "", by decide, by decide⟩,
    rfl⟩

/-! ## C6 — content-type handling of `parseDomFragment` -/

/-- The `indexOf`/`slice` computation equals taking the longest initial
run of non-semicolon characters. -/
theorem simpleContentType_eq_takeWhile (s : List Char) :
    simpleContentType s = s.takeWhile fun ch => ch != ';' := by
  induction s with
  | nil => rfl
  | cons c rest ih =>
      by_cases hc : c = ';'
      · subst hc
        simp [simpleContentType, List.findIdx?_cons, List.takeWhile_cons]
      · have hC : (c == ';') = false := by simp [hc]
        have hidx : (c :: rest).findIdx? (· == ';') =
            (rest.findIdx? (· == ';')).map fun i => i + 1 := by
          rw [List.findIdx?_cons]
          simp [hC, List.findIdx?_succ]
        cases hf : rest.findIdx? (· == ';') with
        | none =>
            have ihr : rest = rest.takeWhile fun ch => ch != ';' := by
              simpa [simpleContentType, hf] using ih
            simp only [simpleContentType, hidx, hf, Option.map, List.takeWhile_cons]
            simpa [bne, hC] using congrArg (c :: ·) ihr
        | some i =>
            have ihr : rest.take i = rest.takeWhile fun ch => ch != ';' := by
              simpa [simpleContentType, hf] using ih
            simp only [simpleContentType, hidx, hf, Option.map, List.take_succ_cons,
              List.takeWhile_cons]
            simpa [bne, hC] using congrArg (c :: ·) ihr

/-- Counterexample to C6 as stated: a response that *does* carry a
`Content-Type` header whose value is the empty string still fails with
the missing-content-type error, because the source tests JS falsiness
(`if (!contentType)`), not header absence. -/
theorem parseDomFragmentMode_empty_header_errors :
    parseDomFragmentMode (some []) = .error .missingContentType ∧
    some ([] : List Char) ≠ (none : Option (List Char)) :=
  ⟨rfl, by decide⟩

/-- **C6 (amended).** The whole-response parser fails with the
missing-content-type error iff the response carries no `Content-Type`
header *or* carries one with an empty value; for any non-empty header
value, the parser mode is exactly the primary token — the longest
initial run of characters before the first parameter delimiter `;`,
which therefore contains no delimiter and is an initial segment of the
header value. -/
theorem parseDomFragmentMode_spec (ct : Option (List Char)) :
    ((∃ e, parseDomFragmentMode ct = .error e) ↔ (ct = none ∨ ct = some [])) ∧
    (∀ s, ct = some s → s ≠ [] →
      parseDomFragmentMode ct = .ok (s.takeWhile fun ch => ch != ';') ∧
      (∀ ch ∈ s.takeWhile fun ch => ch != ';', ch ≠ ';') ∧
      (s.takeWhile fun ch => ch != ';') ++ (s.dropWhile fun ch => ch != ';') = s) := by
  constructor
  · cases ct with
    | none =>
        constructor
        · intro _
          exact Or.inl rfl
        · intro _
          exact ⟨.missingContentType, rfl⟩
    | some s =>
        by_cases hs : s = []
        · subst hs
          constructor
          · intro _
            exact Or.inr rfl
          · intro _
            exact ⟨.missingContentType, rfl⟩
        · simp [parseDomFragmentMode, hs]
  · intro s hct hs
    subst hct
    refine ⟨?_, ?_, ?_⟩
    · simp [parseDomFragmentMode, hs, simpleContentType_eq_takeWhile]
    · intro ch hch
      have hp := List.mem_takeWhile_imp hch
      simpa using hp
    · exact List.takeWhile_append_dropWhile _ _

/-- Witness for C6 (amended) at the concrete header value
`text/html;charset=utf-8`: the selected parser mode is `text/html`. -/
theorem parseDomFragmentMode_spec_witness :
    parseDomFragmentMode (some ("text/html;charset=utf-8".data)) =
      .ok ("text/html;charset=utf-8".data.takeWhile fun ch => ch != ';') ∧
    ("text/html;charset=utf-8".data.takeWhile fun ch => ch != ';') =
      "text/html".data :=
  ⟨((parseDomFragmentMode_spec _).2 _ rfl (by decide)).1, by decide⟩

/-! ## C9/C10 — clone independence; cloning bypasses fixups on non-containers -/

/-- Mutating an id that does not occur in a tree leaves it unchanged. -/
theorem mutateText_not_mem (i : Nat) (s : String) (t : Dom) (h : i ∉ domIds t) :
    mutateText i s t = t := by
  induction t with
  | nil => rfl
  | node j k tg a tx sh ch sb ihsh ihch ihsb =>
      have hj : ¬(j = i) := fun hji => h (by simp [domIds, hji])
      have hsh : i ∉ domIds sh := fun hm => h (by simp [domIds, hm])
      have hch : i ∉ domIds ch := fun hm => h (by simp [domIds, hm])
      have hsb : i ∉ domIds sb := fun hm => h (by simp [domIds, hm])
      simp [mutateText, hj, ihsh hsh, ihch hch, ihsb hsb]

/-- Membership in the ids of `Option.getD` comes from the option or from
the default. -/
theorem domIds_getD (o : Option Dom) (d : Dom) (i : Nat)
    (h : i ∈ domIds (o.getD d)) : i ∈ domIdsOpt o ∨ i ∈ domIds d := by
  cases o with
  | none => exact Or.inr h
  | some x => exact Or.inl h

/-- `importChain` only allocates ids in the half-open interval from the
counter before the call to the counter after it. -/
theorem importChain_spec (t : Dom) : ∀ c : Nat,
    c ≤ (importChain c t).2 ∧
    ∀ i ∈ domIds (importChain c t).1, c ≤ i ∧ i < (importChain c t).2 := by
  induction t with
  | nil => intro c; exact ⟨Nat.le_refl c, by simp [importChain, domIds]⟩
  | node j k tg a tx sh ch sb ihsh ihch ihsb =>
      intro c
      obtain ⟨hc1, hm1⟩ := ihch (c + 1)
      obtain ⟨hc2, hm2⟩ := ihsb (importChain (c + 1) ch).2
      constructor
      · simp only [importChain]
        omega
      · intro i hi
        simp only [importChain, domIds, List.mem_cons, List.mem_append,
          List.not_mem_nil, false_or] at hi ⊢
        rcases hi with hi | hi | hi
        · subst hi; omega
        · have := hm1 i hi; omega
        · have := hm2 i hi; omega

/-- `importNode` only allocates ids in the interval spanned by the
counter. -/
theorem importNode_spec (t : Dom) (c : Nat) :
    c ≤ (importNode c t).2 ∧
    ∀ i ∈ domIds (importNode c t).1, c ≤ i ∧ i < (importNode c t).2 := by
  cases t with
  | nil => exact ⟨Nat.le_refl c, by simp [importNode, domIds]⟩
  | node j k tg a tx sh ch sb =>
      obtain ⟨hc1, hm1⟩ := importChain_spec ch (c + 1)
      constructor
      · simp only [importNode]
        omega
      · intro i hi
        simp only [importNode, domIds, List.mem_cons, List.mem_append,
          List.not_mem_nil, false_or, or_false] at hi ⊢
        rcases hi with hi | hi
        · subst hi; omega
        · have := hm1 i hi; omega

/-- `fixupDsdChain` keeps the counter monotone, and every id in its
rewritten chain or in its extracted shadow content is either an id of
the input chain or freshly allocated from the counter interval. -/
theorem fixupDsdChain_spec (t : Dom) : ∀ c : Nat,
    c ≤ (fixupDsdChain c t).2.2 ∧
    (∀ i ∈ domIds (fixupDsdChain c t).1,
      i ∈ domIds t ∨ (c ≤ i ∧ i < (fixupDsdChain c t).2.2)) ∧
    (∀ i ∈ domIdsOpt (fixupDsdChain c t).2.1,
      i ∈ domIds t ∨ (c ≤ i ∧ i < (fixupDsdChain c t).2.2)) := by
  induction t with
  | nil =>
      intro c
      exact ⟨Nat.le_refl c, by simp [fixupDsdChain, domIds],
        by simp [fixupDsdChain, domIdsOpt]⟩
  | node j k tg a tx sh ch sb ihsh ihch ihsb =>
      intro c
      by_cases ht : k = NKind.element ∧ tg = "template"
      · cases hattr : getAttr a "shadowroot" with
        | some m =>
            by_cases hm : m = ""
            · obtain ⟨hcs, hms, hos⟩ := ihsb c
              refine ⟨?_, ?_, ?_⟩
              · simpa only [fixupDsdChain, if_pos ht, hattr, if_pos hm] using hcs
              · intro i hi
                simp only [fixupDsdChain, if_pos ht, hattr, if_pos hm] at hi ⊢
                simp only [domIds, List.mem_cons, List.mem_append] at hi ⊢
                rcases hi with hi | (hi | hi) | hi
                · tauto
                · tauto
                · tauto
                · rcases hms i hi with h | h
                  · tauto
                  · exact Or.inr h
              · intro i hi
                simp only [fixupDsdChain, if_pos ht, hattr, if_pos hm] at hi ⊢
                rcases hos i hi with h | h
                · simp only [domIds, List.mem_cons, List.mem_append]
                  tauto
                · exact Or.inr h
            · obtain ⟨hci, hmi⟩ := importChain_spec ch c
              obtain ⟨hcs, hms, hos⟩ := ihsb (importChain c ch).2
              refine ⟨?_, ?_, ?_⟩
              · simp only [fixupDsdChain, if_pos ht, hattr, if_neg hm]
                omega
              · intro i hi
                simp only [fixupDsdChain, if_pos ht, hattr, if_neg hm] at hi ⊢
                rcases hms i hi with h | h
                · simp only [domIds, List.mem_cons, List.mem_append]
                  tauto
                · exact Or.inr (by omega)
              · intro i hi
                simp only [fixupDsdChain, if_pos ht, hattr, if_neg hm] at hi ⊢
                rcases domIds_getD _ _ _ hi with h | h
                · rcases hos i h with h2 | h2
                  · simp only [domIds, List.mem_cons, List.mem_append]
                    tauto
                  · exact Or.inr (by omega)
                · have := hmi i h
                  exact Or.inr (by omega)
        | none =>
            obtain ⟨hcs, hms, hos⟩ := ihsb c
            refine ⟨?_, ?_, ?_⟩
            · simpa only [fixupDsdChain, if_pos ht, hattr] using hcs
            · intro i hi
              simp only [fixupDsdChain, if_pos ht, hattr] at hi ⊢
              simp only [domIds, List.mem_cons, List.mem_append] at hi ⊢
              rcases hi with hi | (hi | hi) | hi
              · tauto
              · tauto
              · tauto
              · rcases hms i hi with h | h
                · tauto
                · exact Or.inr h
            · intro i hi
              simp only [fixupDsdChain, if_pos ht, hattr] at hi ⊢
              rcases hos i hi with h | h
              · simp only [domIds, List.mem_cons, List.mem_append]
                tauto
              · exact Or.inr h
      · obtain ⟨hcc, hmc, hoc⟩ := ihch c
        obtain ⟨hcs, hms, hos⟩ := ihsb (fixupDsdChain c ch).2.2
        refine ⟨?_, ?_, ?_⟩
        · simp only [fixupDsdChain, if_neg ht]
          omega
        · intro i hi
          simp only [fixupDsdChain, if_neg ht] at hi ⊢
          simp only [domIds, List.mem_cons, List.mem_append] at hi ⊢
          rcases hi with hi | (hi | hi) | hi
          · tauto
          · -- id in the (possibly replaced) shadow tree
            rcases domIds_getD _ _ _ hi with h | h
            · rcases hoc i h with h2 | h2
              · tauto
              · exact Or.inr (by omega)
            · tauto
          · rcases hmc i hi with h | h
            · tauto
            · exact Or.inr (by omega)
          · rcases hms i hi with h | h
            · tauto
            · exact Or.inr (by omega)
        · intro i hi
          simp only [fixupDsdChain, if_neg ht] at hi ⊢
          rcases hos i hi with h | h
          · simp only [domIds, List.mem_cons, List.mem_append]
            tauto
          · exact Or.inr (by omega)

/-- `fixupScriptsChain` keeps the counter monotone and every id in its
result is either an id of the input chain or freshly allocated. -/
theorem fixupScriptsChain_ids (t : Dom) : ∀ (table : List Nat) (c : Nat),
    c ≤ (fixupScriptsChain table c t).2.2 ∧
    ∀ i ∈ domIds (fixupScriptsChain table c t).1,
      i ∈ domIds t ∨ (c ≤ i ∧ i < (fixupScriptsChain table c t).2.2) := by
  induction t with
  | nil => intro table c; exact ⟨Nat.le_refl c, by simp [fixupScriptsChain, domIds]⟩
  | node j k tg a tx sh ch sb ihsh ihch ihsb =>
      intro table c
      by_cases hs : k = NKind.element ∧ tg = "script"
      · by_cases hmem : j ∈ table
        · obtain ⟨hcs, hms⟩ := ihsb table c
          refine ⟨?_, ?_⟩
          · simpa only [fixupScriptsChain, if_pos hs, if_pos hmem] using hcs
          · intro i hi
            simp only [fixupScriptsChain, if_pos hs, if_pos hmem] at hi ⊢
            simp only [domIds, List.mem_cons, List.mem_append] at hi ⊢
            rcases hi with hi | (hi | hi) | hi
            · tauto
            · tauto
            · tauto
            · rcases hms i hi with h | h
              · tauto
              · exact Or.inr h
        · obtain ⟨hcs, hms⟩ := ihsb (table ++ [c]) (c + 1)
          refine ⟨?_, ?_⟩
          · simp only [fixupScriptsChain, if_pos hs, if_neg hmem]
            omega
          · intro i hi
            simp only [fixupScriptsChain, if_pos hs, if_neg hmem] at hi ⊢
            simp only [withSib, manualClone, domIds, List.mem_cons, List.mem_append,
              List.not_mem_nil, false_or, or_false] at hi
            rcases hi with hi | hi
            · subst hi
              exact Or.inr (by omega)
            · rcases hms i hi with h | h
              · simp only [domIds, List.mem_cons, List.mem_append]
                tauto
              · exact Or.inr (by omega)
      · by_cases htp : k = NKind.element ∧ tg = "template"
        · obtain ⟨hcs, hms⟩ := ihsb table c
          refine ⟨?_, ?_⟩
          · simpa only [fixupScriptsChain, if_neg hs, if_pos htp] using hcs
          · intro i hi
            simp only [fixupScriptsChain, if_neg hs, if_pos htp] at hi ⊢
            simp only [domIds, List.mem_cons, List.mem_append] at hi ⊢
            rcases hi with hi | (hi | hi) | hi
            · tauto
            · tauto
            · tauto
            · rcases hms i hi with h | h
              · tauto
              · exact Or.inr h
        · obtain ⟨hcc, hmc⟩ := ihch table c
          obtain ⟨hcs, hms⟩ :=
            ihsb (fixupScriptsChain table c ch).2.1 (fixupScriptsChain table c ch).2.2
          refine ⟨?_, ?_⟩
          · simp only [fixupScriptsChain, if_neg hs, if_neg htp]
            omega
          · intro i hi
            simp only [fixupScriptsChain, if_neg hs, if_neg htp] at hi ⊢
            simp only [domIds, List.mem_cons, List.mem_append] at hi ⊢
            rcases hi with hi | (hi | hi) | hi
            · tauto
            · tauto
            · rcases hmc i hi with h | h
              · tauto
              · exact Or.inr (by omega)
            · rcases hms i hi with h | h
              · tauto
              · exact Or.inr (by omega)

/-- Root-level id bounds for `fixupDeclarativeShadowDom`. -/
theorem fixupDeclarativeShadowDom_ids (t : Dom) (c : Nat) :
    c ≤ (fixupDeclarativeShadowDom c t).2 ∧
    ∀ i ∈ domIds (fixupDeclarativeShadowDom c t).1,
      i ∈ domIds t ∨ (c ≤ i ∧ i < (fixupDeclarativeShadowDom c t).2) := by
  cases t with
  | nil =>
      exact ⟨Nat.le_refl c, by simp [fixupDeclarativeShadowDom, domIds]⟩
  | node j k tg a tx sh ch sb =>
      by_cases ht : k = NKind.element ∧ tg = "template"
      · refine ⟨?_, ?_⟩
        · simp [fixupDeclarativeShadowDom, ht]
        · intro i hi
          simp only [fixupDeclarativeShadowDom, if_pos ht] at hi
          exact Or.inl hi
      · obtain ⟨hcc, hmc, hoc⟩ := fixupDsdChain_spec ch c
        refine ⟨?_, ?_⟩
        · simpa only [fixupDeclarativeShadowDom, if_neg ht] using hcc
        · intro i hi
          simp only [fixupDeclarativeShadowDom, if_neg ht] at hi ⊢
          simp only [domIds, List.mem_cons, List.mem_append] at hi ⊢
          rcases hi with hi | (hi | hi) | hi
          · tauto
          · rcases domIds_getD _ _ _ hi with h | h
            · rcases hoc i h with h2 | h2
              · tauto
              · exact Or.inr h2
            · tauto
          · rcases hmc i hi with h | h
            · tauto
            · exact Or.inr h
          · tauto

/-- Root-level id bounds for `fixupScripts`. -/
theorem fixupScripts_ids (t : Dom) (table : List Nat) (c : Nat) :
    c ≤ (fixupScripts table c t).2.2 ∧
    ∀ i ∈ domIds (fixupScripts table c t).1,
      i ∈ domIds t ∨ (c ≤ i ∧ i < (fixupScripts table c t).2.2) := by
  cases t with
  | nil =>
      exact ⟨Nat.le_refl c, by simp [fixupScripts, domIds]⟩
  | node j k tg a tx sh ch sb =>
      by_cases ht : k = NKind.element ∧ tg = "template"
      · refine ⟨?_, ?_⟩
        · simp [fixupScripts, ht]
        · intro i hi
          simp only [fixupScripts, if_pos ht] at hi
          exact Or.inl hi
      · obtain ⟨hcc, hmc⟩ := fixupScriptsChain_ids ch table c
        refine ⟨?_, ?_⟩
        · simpa only [fixupScripts, if_neg ht] using hcc
        · intro i hi
          simp only [fixupScripts, if_neg ht] at hi ⊢
          simp only [domIds, List.mem_cons, List.mem_append] at hi ⊢
          rcases hi with hi | (hi | hi) | hi
          · tauto
          · tauto
          · rcases hmc i hi with h | h
            · tauto
            · exact Or.inr h
          · tauto

/-- Every id of a `cloneContent` result is freshly allocated from the
counter interval of the call. -/
theorem cloneContent_ids (t : Dom) (table : List Nat) (c : Nat) :
    c ≤ (cloneContent table c t).2.2 ∧
    ∀ i ∈ domIds (cloneContent table c t).1,
      c ≤ i ∧ i < (cloneContent table c t).2.2 := by
  obtain ⟨hci, hmi⟩ := importNode_spec t c
  by_cases hcond : kindOf (importNode c t).1 = some NKind.element ∨
      kindOf (importNode c t).1 = some NKind.fragment
  · obtain ⟨hcd, hmd⟩ := fixupDeclarativeShadowDom_ids (importNode c t).1 (importNode c t).2
    obtain ⟨hcf, hmf⟩ :=
      fixupScripts_ids (fixupDeclarativeShadowDom (importNode c t).2 (importNode c t).1).1
        table (fixupDeclarativeShadowDom (importNode c t).2 (importNode c t).1).2
    refine ⟨?_, ?_⟩
    · simp only [cloneContent, if_pos hcond]
      omega
    · intro i hi
      simp only [cloneContent, if_pos hcond] at hi ⊢
      rcases hmf i hi with h | h
      · rcases hmd i h with h2 | h2
        · have := hmi i h2
          omega
        · omega
      · omega
  · refine ⟨?_, ?_⟩
    · simp only [cloneContent, if_neg hcond]
      exact hci
    · intro i hi
      simp only [cloneContent, if_neg hcond] at hi ⊢
      exact hmi i hi

/-- Importing preserves the root's node kind. -/
theorem kindOf_importNode (c : Nat) (t : Dom) : kindOf (importNode c t).1 = kindOf t := by
  cases t <;> rfl

/-- **C10.** When the wrapped node is neither an element nor a document
fragment (e.g. a bare top-level text node from the streaming path),
`Fragment.cloneContent` returns exactly the deep import of the node into
the active document — no shadow-tree reconstruction and no script
reconstruction are applied, and the side table and counter are those of
the plain import. -/
theorem cloneContent_plain_import (t : Dom) (table : List Nat) (c : Nat)
    (h1 : kindOf t ≠ some NKind.element) (h2 : kindOf t ≠ some NKind.fragment) :
    cloneContent table c t = ((importNode c t).1, table, (importNode c t).2) := by
  have hcond : ¬(kindOf (importNode c t).1 = some NKind.element ∨
      kindOf (importNode c t).1 = some NKind.fragment) := by
    rw [kindOf_importNode]
    exact fun hor => hor.elim h1 h2
  simp only [cloneContent, if_neg hcond]

/-- Witness for C10: cloning a wrapped bare text node is the plain deep
import. -/
theorem cloneContent_plain_import_witness :
    cloneContent [] 5 (Dom.node 0 NKind.textNode "" [] "hello" .nil .nil .nil) =
      ((importNode 5 (Dom.node 0 NKind.textNode "" [] "hello" .nil .nil .nil)).1, [],
        (importNode 5 (Dom.node 0 NKind.textNode "" [] "hello" .nil .nil .nil)).2) :=
  cloneContent_plain_import _ [] 5 (by decide) (by decide)

/-- **C9.** Cloning the same wrapped node twice yields trees with no
shared node identities — the two clones are disjoint from each other and
from the original — so mutating (by id) any node of one clone leaves the
other clone and the original tree unchanged, and vice versa. -/
theorem cloneContent_independent (t : Dom) (table : List Nat) (c : Nat)
    (h : ∀ i ∈ domIds t, i < c)
    (r1 r2 : Dom × List Nat × Nat)
    (h1 : r1 = cloneContent table c t) (h2 : r2 = cloneContent r1.2.1 r1.2.2 t) :
    List.Disjoint (domIds r1.1) (domIds r2.1) ∧
    List.Disjoint (domIds t) (domIds r1.1) ∧
    List.Disjoint (domIds t) (domIds r2.1) ∧
    (∀ i ∈ domIds r1.1, ∀ s, mutateText i s r2.1 = r2.1 ∧ mutateText i s t = t) ∧
    (∀ i ∈ domIds r2.1, ∀ s, mutateText i s r1.1 = r1.1 ∧ mutateText i s t = t) := by
  subst h1
  subst h2
  obtain ⟨hc1, hm1⟩ := cloneContent_ids t table c
  obtain ⟨hc2, hm2⟩ :=
    cloneContent_ids t (cloneContent table c t).2.1 (cloneContent table c t).2.2
  have hd12 : List.Disjoint (domIds (cloneContent table c t).1)
      (domIds (cloneContent (cloneContent table c t).2.1
        (cloneContent table c t).2.2 t).1) := by
    intro i hi1 hi2
    have := hm1 i hi1
    have := hm2 i hi2
    omega
  have hdt1 : List.Disjoint (domIds t) (domIds (cloneContent table c t).1) := by
    intro i hit hi1
    have := h i hit
    have := hm1 i hi1
    omega
  have hdt2 : List.Disjoint (domIds t)
      (domIds (cloneContent (cloneContent table c t).2.1
        (cloneContent table c t).2.2 t).1) := by
    intro i hit hi2
    have := h i hit
    have := hm2 i hi2
    omega
  refine ⟨hd12, hdt1, hdt2, ?_, ?_⟩
  · intro i hi1 s
    exact ⟨mutateText_not_mem i s _ (fun hi2 => hd12 hi1 hi2),
      mutateText_not_mem i s t (fun hit => hdt1 hit hi1)⟩
  · intro i hi2 s
    exact ⟨mutateText_not_mem i s _ (fun hi1 => hd12 hi1 hi2),
      mutateText_not_mem i s t (fun hit => hdt2 hit hi2)⟩

/-- Witness for C9 at a concrete one-element wrapped tree: the second
clone and the original are untouched by mutating the first clone's node,
whose id is fresh. -/
theorem cloneContent_independent_witness :
    mutateText 1 "x"
        (cloneContent (cloneContent [] 1 (Dom.node 0 NKind.element "div" [] "" .nil .nil .nil)).2.1
          (cloneContent [] 1 (Dom.node 0 NKind.element "div" [] "" .nil .nil .nil)).2.2
          (Dom.node 0 NKind.element "div" [] "" .nil .nil .nil)).1 =
      (cloneContent (cloneContent [] 1 (Dom.node 0 NKind.element "div" [] "" .nil .nil .nil)).2.1
          (cloneContent [] 1 (Dom.node 0 NKind.element "div" [] "" .nil .nil .nil)).2.2
          (Dom.node 0 NKind.element "div" [] "" .nil .nil .nil)).1 ∧
    mutateText 1 "x" (Dom.node 0 NKind.element "div" [] "" .nil .nil .nil) =
      Dom.node 0 NKind.element "div" [] "" .nil .nil .nil :=
  (cloneContent_independent (Dom.node 0 NKind.element "div" [] "" .nil .nil .nil) [] 1
      (by decide) _ _ rfl rfl).2.2.2.1 1 (by decide) "x"

/-! ## C5 — script reconstruction and the side table -/

/-- `rewriteScripts` distributes over appending script lists, threading
the table and counter. -/
theorem rewriteScripts_append (xs ys : List (Nat × List (String × String) × String)) :
    ∀ (table : List Nat) (c : Nat),
    rewriteScripts table c (xs ++ ys) =
      ((rewriteScripts table c xs).1 ++
        (rewriteScripts (rewriteScripts table c xs).2.1
          (rewriteScripts table c xs).2.2 ys).1,
       (rewriteScripts (rewriteScripts table c xs).2.1
          (rewriteScripts table c xs).2.2 ys).2.1,
       (rewriteScripts (rewriteScripts table c xs).2.1
          (rewriteScripts table c xs).2.2 ys).2.2) := by
  induction xs with
  | nil => intro table c; simp [rewriteScripts]
  | cons e rest ih =>
      intro table c
      obtain ⟨i, a, tx⟩ := e
      by_cases hmem : i ∈ table
      · simp [rewriteScripts, hmem, ih]
      · simp [rewriteScripts, hmem, ih]

/-- The tree-level script fixup, projected onto the scripts it visits,
is exactly the claim-level rewrite of the script list. -/
theorem fixupScriptsChain_rewrites (t : Dom) : ∀ (table : List Nat) (c : Nat),
    scriptsOfChain (fixupScriptsChain table c t).1 =
      (rewriteScripts table c (scriptsOfChain t)).1 ∧
    (fixupScriptsChain table c t).2.1 = (rewriteScripts table c (scriptsOfChain t)).2.1 ∧
    (fixupScriptsChain table c t).2.2 = (rewriteScripts table c (scriptsOfChain t)).2.2 := by
  induction t with
  | nil => intro table c; simp [fixupScriptsChain, scriptsOfChain, rewriteScripts]
  | node j k tg a tx sh ch sb ihsh ihch ihsb =>
      intro table c
      by_cases hs : k = NKind.element ∧ tg = "script"
      · by_cases hmem : j ∈ table
        · obtain ⟨e1, e2, e3⟩ := ihsb table c
          simp [fixupScriptsChain, scriptsOfChain, rewriteScripts, hs, hmem, e1, e2, e3]
        · obtain ⟨e1, e2, e3⟩ := ihsb (table ++ [c]) (c + 1)
          simp [fixupScriptsChain, scriptsOfChain, rewriteScripts, withSib, manualClone,
            hs, hmem, e1, e2, e3]
      · by_cases htp : k = NKind.element ∧ tg = "template"
        · obtain ⟨e1, e2, e3⟩ := ihsb table c
          simp [fixupScriptsChain, scriptsOfChain, rewriteScripts, hs, htp, e1, e2, e3]
        · obtain ⟨c1, c2, c3⟩ := ihch table c
          obtain ⟨s1, s2, s3⟩ :=
            ihsb (fixupScriptsChain table c ch).2.1 (fixupScriptsChain table c ch).2.2
          simp only [fixupScriptsChain, if_neg hs, if_neg htp, scriptsOfChain,
            rewriteScripts_append]
          rw [← c2, ← c3]
          exact ⟨by rw [c1, s1], by rw [s2], by rw [s3]⟩

/-- A chain whose scripts are all recorded in the side table is left
completely unchanged by the fixup pass (same nodes, same table, same
counter). -/
theorem fixupScriptsChain_all_recorded (t : Dom) : ∀ (table : List Nat) (c : Nat),
    (∀ e ∈ scriptsOfChain t, e.1 ∈ table) →
    fixupScriptsChain table c t = (t, table, c) := by
  induction t with
  | nil => intro table c _; rfl
  | node j k tg a tx sh ch sb ihsh ihch ihsb =>
      intro table c hall
      by_cases hs : k = NKind.element ∧ tg = "script"
      · have hmem : j ∈ table := by
          have := hall (j, a, tx) (by simp [scriptsOfChain, hs])
          simpa using this
        have hsb : fixupScriptsChain table c sb = (sb, table, c) := by
          apply ihsb
          intro e he
          exact hall e (by simp [scriptsOfChain, hs, he])
        simp [fixupScriptsChain, hs, hmem, hsb]
      · by_cases htp : k = NKind.element ∧ tg = "template"
        · have hsb : fixupScriptsChain table c sb = (sb, table, c) := by
            apply ihsb
            intro e he
            exact hall e (by simp [scriptsOfChain, hs, htp, he])
          simp [fixupScriptsChain, hs, htp, hsb]
        · have hch : fixupScriptsChain table c ch = (ch, table, c) := by
            apply ihch
            intro e he
            exact hall e (by simp [scriptsOfChain, hs, htp, he])
          have hsb : fixupScriptsChain table c sb = (sb, table, c) := by
            apply ihsb
            intro e he
            exact hall e (by simp [scriptsOfChain, hs, htp, he])
          simp [fixupScriptsChain, hs, htp, hch, hsb]

/-- **C5 (amended).** `fixupScripts` transforms the scripts found in the
tree exactly as the claim describes a single pass: a script whose node
id is already recorded in the process-wide side table is left as is; any
other script is replaced in place by a freshly created node carrying all
of the original's attributes and inline content, and the *replacement's*
id is recorded.  Consequently a tree whose scripts are all recorded is
left completely untouched by a repeated pass.  (The unamended claim —
that the recording prevents a re-wrapped, re-*cloned* clone from being
rewritten — fails, because re-cloning deep-imports the tree with fresh
node identities; see the counterexample.) -/
theorem fixupScripts_spec (t : Dom) (table : List Nat) (c : Nat) :
    scriptsOf (fixupScripts table c t).1 = (rewriteScripts table c (scriptsOf t)).1 ∧
    (fixupScripts table c t).2.1 = (rewriteScripts table c (scriptsOf t)).2.1 ∧
    (fixupScripts table c t).2.2 = (rewriteScripts table c (scriptsOf t)).2.2 ∧
    ((∀ e ∈ scriptsOf t, e.1 ∈ table) → fixupScripts table c t = (t, table, c)) := by
  cases t with
  | nil => exact ⟨rfl, rfl, rfl, fun _ => rfl⟩
  | node j k tg a tx sh ch sb =>
      by_cases htp : k = NKind.element ∧ tg = "template"
      · refine ⟨?_, ?_, ?_, ?_⟩ <;>
          simp [fixupScripts, scriptsOf, rewriteScripts, htp]
      · obtain ⟨e1, e2, e3⟩ := fixupScriptsChain_rewrites ch table c
        have hscr : scriptsOf (Dom.node j k tg a tx sh ch sb) = scriptsOfChain ch := by
          simp [scriptsOf, htp]
        refine ⟨?_, ?_, ?_, ?_⟩
        · rw [hscr]
          simp only [fixupScripts, if_neg htp]
          rw [← e1]
          simp [scriptsOf, htp]
        · rw [hscr]
          simp only [fixupScripts, if_neg htp]
          exact e2
        · rw [hscr]
          simp only [fixupScripts, if_neg htp]
          exact e3
        · intro hall
          rw [hscr] at hall
          simp only [fixupScripts, if_neg htp]
          rw [fixupScriptsChain_all_recorded ch table c hall]

/-- Witness for C5 (amended): a fragment whose only script's id is
already recorded is left untouched, table and counter included. -/
theorem fixupScripts_spec_witness :
    fixupScripts [2] 5
        (Dom.node 1 NKind.fragment "" [] ""
          .nil
          (Dom.node 2 NKind.element "script" [("type", "module")] "f();" .nil .nil .nil)
          .nil) =
      (Dom.node 1 NKind.fragment "" [] ""
          .nil
          (Dom.node 2 NKind.element "script" [("type", "module")] "f();" .nil .nil .nil)
          .nil, [2], 5) :=
  (fixupScripts_spec _ [2] 5).2.2.2 (by decide)

/-- Counterexample to C5 as stated: re-wrapping and re-cloning a clone
*does* re-rewrite its script.  The first clone of the demo fragment
rewrites the script to the fresh node 12 and records 12; re-cloning that
clone deep-imports it (the script copy gets the fresh id 14, which is
not in the table), so the fixup rewrites the script again — the side
table grows to `[12, 15]` and the re-clone carries a newly rebuilt
script node 15, not the recorded node. -/
theorem cloneContent_reclone_rewrites :
    (cloneContent [] 10 scriptDemoFragment).2.1 = [12] ∧
    scriptsOf (cloneContent [] 10 scriptDemoFragment).1 =
      [(12, [("type", "module"), ("src", "/a.js")], "")] ∧
    (cloneContent (cloneContent [] 10 scriptDemoFragment).2.1
        (cloneContent [] 10 scriptDemoFragment).2.2
        (cloneContent [] 10 scriptDemoFragment).1).2.1 = [12, 15] ∧
    scriptsOf (cloneContent (cloneContent [] 10 scriptDemoFragment).2.1
        (cloneContent [] 10 scriptDemoFragment).2.2
        (cloneContent [] 10 scriptDemoFragment).1).1 =
      [(15, [("type", "module"), ("src", "/a.js")], "")] := by
  decide

end HtmlFragments
